import Mathlib

/-!
Verification of the DroneDevTools RTK relay core (RTKtools/RTKbaseTester).

Byte streams are modelled as `List Nat` (one `Nat` per byte; byte-range
hypotheses `b < 256` are added explicitly where a claim needs them).
Each definition is a shallow embedding of the correspondingly named Python
function; stateful loops are modelled with explicit state passing, and
recursion on a shrinking buffer uses an explicit fuel argument equal to the
buffer length (each iteration consumes at least one byte, so this fuel is
always sufficient; fuel-irrelevance is proved below).
-/

/-- Python `bytes.index(b)` / `bytes.find(b)` for a single byte value:
index of the first occurrence of `b`, or `none`. -/
def bindex (b : Nat) : List Nat → Option Nat
  | [] => none
  | a :: t => if a = b then some 0 else (bindex b t).map (· + 1)

/-- Python `bytes.startswith(pat)`: `pat` is an initial run of `l`. -/
def leadsWith : List Nat → List Nat → Bool
  | [], _ => true
  | _ :: _, [] => false
  | a :: pa, b :: lb => a == b && leadsWith pa lb

/-- Python `bytes.find(pat)`: index of the first occurrence of the
pattern `pat` inside `l`, or `none`. -/
def findSub (pat : List Nat) : List Nat → Option Nat
  | [] => if leadsWith pat [] then some 0 else none
  | a :: t => if leadsWith pat (a :: t) then some 0 else (findSub pat t).map (· + 1)

/-- Python `pat in l` (substring test). -/
def hasSub (pat l : List Nat) : Bool := (findSub pat l).isSome

/-- RTCM3 declared payload length: `((h0 & 0x03) << 8) | h1`
(`ntrip_test.py` line 173, `rtk_rover_complete.py` line 413). -/
def declLen (h0 h1 : Nat) : Nat := ((h0 &&& 0x03) <<< 8) ||| h1

/-- Python `frame[3:-3]`: the payload of an extracted frame. -/
def framePayload (f : List Nat) : List Nat := (f.drop 3).take (f.length - 6)

/-- `parse_rtcm3_message_type` (`ntrip_test.py` lines 85-103): the 12-bit
message number from the first two payload bytes, `-1` if too short. -/
def parse_rtcm3_message_type (payload : List Nat) : Int :=
  if payload.length < 2 then -1
  else (((((payload.getD 0 0) <<< 4) ||| ((payload.getD 1 0) >>> 4)) &&& 0x0FFF : Nat) : Int)

/-- The 12-bit message number as used inline by
`rtk_rover_complete.validate_rtcm_data` (line 430). -/
def msgTypeNat (payload : List Nat) : Nat :=
  (((payload.getD 0 0) <<< 4) ||| ((payload.getD 1 0) >>> 4)) &&& 0x0FFF

/-! ### Frame decoder (`ntrip_test.read_rtcm_stream`, lines 154-189)

The inner `while True` parse loop of `read_rtcm_stream`: repeatedly locate
the sync byte `0xD3`, parse the declared length, and extract complete
frames; when no sync byte is present the buffer is cleared; when an
incomplete frame is present, bytes before the sync marker are discarded
and the loop waits for more data.  `fuel` bounds the number of iterations
and is instantiated with the buffer length (each extracted frame removes
at least 6 bytes). -/
def processBufferF : Nat → List Nat → List (List Nat) × List Nat
  | 0, buf => ([], buf)
  | fuel + 1, buf =>
    match bindex 0xD3 buf with
    | none => ([], [])
    | some i =>
      if buf.length - i < 3 then ([], buf.drop i)
      else
        let t := buf.drop i
        let frameLen := 3 + declLen (t.getD 1 0) (t.getD 2 0) + 3
        if buf.length - i < frameLen then ([], buf.drop i)
        else
          let r := processBufferF fuel (buf.drop (i + frameLen))
          (t.take frameLen :: r.1, r.2)

/-- One run of the parse loop: extracted frames plus the retained buffer. -/
def processBuffer (buf : List Nat) : List (List Nat) × List Nat :=
  processBufferF buf.length buf

/-- Feeding a sequence of received chunks through the decoder, starting
from buffer `buf`: the outer `while True` receive loop of
`read_rtcm_stream`, restricted to its buffer/frame bookkeeping. -/
def feedFrom (buf : List Nat) : List (List Nat) → List (List Nat) × List Nat
  | [] => ([], buf)
  | c :: rest =>
    let r := processBuffer (buf ++ c)
    let out := feedFrom r.2 rest
    (r.1 ++ out.1, out.2)

/-- All frames produced by feeding `chunks` into a fresh decoder. -/
def feedAll (chunks : List (List Nat)) : List (List Nat) × List Nat :=
  feedFrom [] chunks

/-! ### Specification-side stream structure for chunk independence -/

/-- A byte list free of the sync byte `0xD3` ("noise"). -/
def noSync (l : List Nat) : Prop := ∀ b ∈ l, b ≠ 0xD3

/-- A well-formed RTCM3 frame: starts with the sync byte and its total
length is `3 + declaredLength + 3` as encoded in its own header bytes. -/
def wfFrame (f : List Nat) : Prop :=
  f.getD 0 0 = 0xD3 ∧ f.length = 3 + declLen (f.getD 1 0) (f.getD 2 0) + 3

/-- The overall byte sequence described by interleaving segments
`(noiseᵢ, frameᵢ)` followed by trailing noise. -/
def stream (segs : List (List Nat × List Nat)) (tail : List Nat) : List Nat :=
  (segs.map (fun p => p.1 ++ p.2)).flatten ++ tail

/-- Relation between a decoder's retained buffer, the not-yet-fed input,
and the remaining stream structure: either the buffer is empty and the
pending input is exactly the remaining stream, or the buffer holds a
proper prefix of the next frame (whose preceding noise has already been
consumed) and the pending input continues that frame. -/
def Aligned (buf y : List Nat) (segs : List (List Nat × List Nat)) (tail : List Nat) : Prop :=
  (buf = [] ∧ y = stream segs tail) ∨
  (∃ f k segs', segs = ([], f) :: segs' ∧ 0 < k ∧ k < f.length ∧
    buf = f.take k ∧ y = f.drop k ++ stream segs' tail)

/-! ### `rtk_rover_complete.validate_rtcm_data` (lines 389-438) -/

/-- The RTCM-validation slice of `RTKRoverComplete`'s state. -/
structure RoverRtcm where
  rtcm_buffer : List Nat
  rtcm_valid_frames : Nat
  rtcm_msg_types : List Nat
deriving DecidableEq, Repr

/-- The frame-parsing loop of `validate_rtcm_data`: like the decoder loop
but the no-sync branch clears the buffer only above 1024 bytes, and a
frame is counted (and its type recorded) only when the payload has at
least 2 bytes and the derived type is positive. -/
def validateLoopF : Nat → List Nat → Nat → List Nat → RoverRtcm
  | 0, buf, vf, types => ⟨buf, vf, types⟩
  | fuel + 1, buf, vf, types =>
    match bindex 0xD3 buf with
    | none => if 1024 < buf.length then ⟨[], vf, types⟩ else ⟨buf, vf, types⟩
    | some i =>
      if buf.length - i < 3 then ⟨buf.drop i, vf, types⟩
      else
        let t := buf.drop i
        let frameLen := 3 + declLen (t.getD 1 0) (t.getD 2 0) + 3
        if buf.length - i < frameLen then ⟨buf.drop i, vf, types⟩
        else
          let frame := t.take frameLen
          let rest := buf.drop (i + frameLen)
          if 6 ≤ frame.length then
            let payload := framePayload frame
            if 2 ≤ payload.length then
              let mt := msgTypeNat payload
              if 0 < mt then validateLoopF fuel rest (vf + 1) (types.insert mt)
              else validateLoopF fuel rest vf types
            else validateLoopF fuel rest vf types
          else validateLoopF fuel rest vf types

/-- The parse loop at sufficient fuel. -/
def validateLoop (buf : List Nat) (vf : Nat) (types : List Nat) : RoverRtcm :=
  validateLoopF buf.length buf vf types

/-- `RTKRoverComplete.validate_rtcm_data(data)`: append `data` to the
buffer and run the frame-parsing loop. -/
def validate_rtcm_data (s : RoverRtcm) (data : List Nat) : RoverRtcm :=
  validateLoop (s.rtcm_buffer ++ data) s.rtcm_valid_frames s.rtcm_msg_types

/-! ### `rtk_bridge.send_serial_bytes` (lines 117-135) -/

/-- One outbound split step per fuel unit: take up to 70 bytes, zero-pad a
short chunk to 70 bytes, emit `(count, paddedChunk)`, continue past the
consumed bytes.  Fuel is instantiated with the payload length (each
iteration consumes at least one byte). -/
def send_serial_bytesF : Nat → List Nat → List (Nat × List Nat)
  | 0, _ => []
  | _, [] => []
  | fuel + 1, b :: rest =>
    let data := b :: rest
    let chunk := data.take 70
    let count := chunk.length
    let padded := if count < 70 then chunk ++ List.replicate (70 - count) 0 else chunk
    (count, padded) :: send_serial_bytesF fuel (data.drop 70)

/-- `send_serial_bytes(..., data, ...)`: the ordered list of transmitted
`(count, data70)` fields. -/
def send_serial_bytes (data : List Nat) : List (Nat × List Nat) :=
  send_serial_bytesF data.length data

/-! ### `rtk_bridge.is_all_zero` and the two inbound passthrough loops -/

/-- `is_all_zero(data)` (`rtk_bridge.py` lines 35-39). -/
def is_all_zero : List Nat → Bool
  | [] => true
  | b :: rest => if b ≠ 0 then false else is_all_zero rest

/-- The forwarding decision of `rtk_bridge.gps2_to_tcp_loop` (lines
159-173) for one received SERIAL_CONTROL message: `some payload` when the
payload is forwarded to the TCP bridge, `none` when nothing is forwarded. -/
def gps2_to_tcp_step (device msgDevice msgCount : Nat) (msgData : List Nat) :
    Option (List Nat) :=
  if 0 < msgCount ∧ msgDevice = device then
    let data := msgData.take msgCount
    if is_all_zero data = false then some data else none
  else none

/-- The forwarding decision of `uPrecise_forward.mavlink_loop` (lines
182-206): the zero-payload test there only gates console printing; any
matching message's payload is sent to the connected TCP client. -/
def uPrecise_forward_step (device msgDevice msgCount : Nat) (msgData : List Nat) :
    Option (List Nat) :=
  if 0 < msgCount ∧ msgDevice = device then some (msgData.take msgCount)
  else none

/-! ### `ntrip_proxy.ClientManager.broadcast` (lines 253-272)

Clients are modelled by their identities (`Nat`).  Whether a given
client's `sendall` raises is modelled by the predicate `failing`. -/

/-- The fan-out sweep of `broadcast`: deliver to each client in registry
order, collecting the clients whose write failed.  Returns
`(delivered-in-order, disconnected-in-order)`. -/
def broadcastSweep (failing : Nat → Bool) : List Nat → List Nat × List Nat
  | [] => ([], [])
  | c :: cs =>
    let r := broadcastSweep failing cs
    if failing c then (r.1, c :: r.2) else (c :: r.1, r.2)

/-- `ClientManager.broadcast(data)`: sweep all clients, then remove (and
close) each disconnected client.  Returns
`(registry-after, delivered-in-order, closed)`. -/
def broadcast (failing : Nat → Bool) (clients : List Nat) :
    List Nat × List Nat × List Nat :=
  let s := broadcastSweep failing clients
  let remaining := s.2.foldl (fun cs c => cs.erase c) clients
  (remaining, s.1, s.2)

/-! ### `ntrip_proxy.check_response_header` (lines 169-222) -/

/-- The control-byte scan
`for i in range(lo, lo + n): if header[i] < 32 and header[i] not in (9, 10, 13)`. -/
def ctrlScanN (header : List Nat) : Nat → Nat → Option Nat
  | _, 0 => none
  | lo, n + 1 =>
    let b := header.getD lo 0
    if b < 32 ∧ b ≠ 9 ∧ b ≠ 10 ∧ b ≠ 13 then some lo
    else ctrlScanN header (lo + 1) n

/-- The `header_end` computation of `check_response_header` (lines
171-190): position of the split between header text and binary payload. -/
def header_end_pos (header : List Nat) : Nat :=
  match findSub [13, 10, 13, 10] header with
  | some i => i + 4
  | none =>
    let statusEnd :=
      match findSub [13, 10] header with
      | some s => some s
      | none => findSub [10] header
    match statusEnd with
    | none => header.length
    | some s =>
      match (bindex 0xD3 (header.drop (s + 2))).map (· + (s + 2)) with
      | some d => d
      | none =>
        match ctrlScanN header (s + 2) (min header.length (s + 200) - (s + 2)) with
        | some i => i
        | none => header.length

/-- The status-line extraction of `check_response_header` (lines
195-198): text part up to the first CRLF, else up to the first LF. -/
def statusLineOf (header : List Nat) : List Nat :=
  let txt := header.take (header_end_pos header)
  let s1 :=
    match findSub [13, 10] txt with
    | some s => txt.take s
    | none => txt
  if hasSub [10] s1 = true ∧ hasSub [13, 10] s1 = false then
    match findSub [10] s1 with
    | some t => s1.take t
    | none => s1
  else s1

/-- Classification outcome of `check_response_header`: the `success`
payload is the returned `(header_text_part, binary_data_part)` pair; the
other constructors are the four `ConnectionError` classes raised. -/
inductive NtripResponse
  | success (headerText binData : List Nat)
  | authFailed
  | mountpointNotFound
  | serverError
  | unexpected (statusLine : List Nat)
deriving DecidableEq, Repr

/-- `check_response_header(header)` (lines 169-222).  Byte literals:
`"ICY 200" = [73,67,89,32,50,48,48]`, `" 200 " = [32,50,48,48,32]`,
`"401"/"403"/"404"/"500" = [52,48,49]/[52,48,51]/[52,48,52]/[53,48,48]`. -/
def check_response_header (header : List Nat) : NtripResponse :=
  let e := header_end_pos header
  let htext := header.take e
  let bdata := header.drop e
  let sl := statusLineOf header
  if leadsWith [73, 67, 89, 32, 50, 48, 48] sl = true ∨ hasSub [32, 50, 48, 48, 32] sl = true then
    .success htext bdata
  else if hasSub [52, 48, 49] sl = true ∨ hasSub [52, 48, 51] sl = true then .authFailed
  else if hasSub [52, 48, 52] sl = true then .mountpointNotFound
  else if hasSub [53, 48, 48] sl = true then .serverError
  else .unexpected sl

/-! ### `ntrip_proxy.connect_ntrip` header-read loop (lines 119-161)

The loop is modelled over the list of chunks the socket delivers; an
empty chunk models the peer closing the connection (the `if not chunk`
break), and exhausting the list models no further data arriving. -/

/-- The incremental header-read loop: while the buffer is below 64 KiB,
receive a chunk (at most 1024 bytes from `recv(1024)`), append it, and
stop on CRLFCRLF or on a detected 200 status once more than 128 bytes
have arrived. -/
def readHeaderLoop (chunks : List (List Nat)) (header : List Nat) : List Nat :=
  if 64 * 1024 ≤ header.length then header
  else
    match chunks with
    | [] => header
    | c :: rest =>
      if c = [] then header
      else
        let h' := header ++ c
        if hasSub [13, 10, 13, 10] h' = true then h'
        else if (hasSub [73, 67, 89, 32, 50, 48, 48] h' = true ∨
                 hasSub [32, 50, 48, 48, 32] h' = true) ∧ 128 < h'.length then h'
        else readHeaderLoop rest h'

/-! ### Specification-side occurrence predicates (for the header split) -/

/-- `pat` occurs in `l` at position `i`. -/
def occursAt (pat l : List Nat) (i : Nat) : Prop := leadsWith pat (l.drop i) = true

/-- `i` is the first position at which `pat` occurs in `l`. -/
def firstOccAt (pat l : List Nat) (i : Nat) : Prop :=
  occursAt pat l i ∧ ∀ j < i, ¬ occursAt pat l j

/-- `pat` occurs nowhere in `l` (bounded form, equivalent for `pat ≠ []`). -/
def noOcc (pat l : List Nat) : Prop := ∀ j < l.length, ¬ occursAt pat l j

/-- A control byte in the sense of the header scan: value below 32 other
than tab, LF, CR. -/
def isCtrl (b : Nat) : Prop := b < 32 ∧ b ≠ 9 ∧ b ≠ 10 ∧ b ≠ 13


instance (pat l : List Nat) (i : Nat) : Decidable (occursAt pat l i) := by
  unfold occursAt; infer_instance

instance (pat l : List Nat) (i : Nat) : Decidable (firstOccAt pat l i) := by
  unfold firstOccAt; infer_instance

instance (pat l : List Nat) : Decidable (noOcc pat l) := by
  unfold noOcc; infer_instance

instance (b : Nat) : Decidable (isCtrl b) := by
  unfold isCtrl; infer_instance

instance (l : List Nat) : Decidable (noSync l) := by
  unfold noSync; infer_instance

instance (f : List Nat) : Decidable (wfFrame f) := by
  unfold wfFrame; infer_instance

/-! ## Basic facts about `bindex` -/

theorem bindex_none_iff (b : Nat) (l : List Nat) :
    bindex b l = none ↔ ∀ a ∈ l, a ≠ b := by
  induction l with
  | nil => simp [bindex]
  | cons a t ih =>
    by_cases hab : a = b
    · simp [bindex, hab]
    · simp [bindex, hab, ih]

theorem bindex_append_cons (b : Nat) (n t : List Nat) (hn : ∀ a ∈ n, a ≠ b) :
    bindex b (n ++ b :: t) = some n.length := by
  induction n with
  | nil => simp [bindex]
  | cons a m ih =>
    have ha : a ≠ b := hn a (by simp)
    have hm : ∀ x ∈ m, x ≠ b := fun x hx => hn x (by simp [hx])
    simp [bindex, ha, ih hm]

theorem bindex_some_spec (b : Nat) (l : List Nat) (i : Nat) (h : bindex b l = some i) :
    i < l.length ∧ l.getD i 0 = b ∧ ∀ j < i, l.getD j 0 ≠ b := by
  induction l generalizing i with
  | nil => simp [bindex] at h
  | cons a t ih =>
    by_cases hab : a = b
    · simp [bindex, hab] at h
      subst h
      simpa using hab
    · simp [bindex, hab] at h
      obtain ⟨i', hi', rfl⟩ := h
      obtain ⟨h1, h2, h3⟩ := ih i' hi'
      refine ⟨by simpa using h1, by simpa using h2, ?_⟩
      intro j hj
      match j with
      | 0 => simpa using hab
      | j' + 1 =>
        have := h3 j' (by omega)
        simpa using this

theorem bindex_ne_nil (b : Nat) (l : List Nat) (i : Nat) (h : bindex b l = some i) :
    l ≠ [] := by
  intro hl
  subst hl
  simp [bindex] at h

/-! ## Decoder equation lemmas -/

theorem processBufferF_congr :
    ∀ f1 f2 buf, buf.length ≤ f1 → buf.length ≤ f2 →
    processBufferF f1 buf = processBufferF f2 buf := by
  intro f1
  induction f1 with
  | zero =>
    intro f2 buf h1 _
    have hbuf : buf = [] := List.length_eq_zero.mp (by omega)
    subst hbuf
    cases f2 <;> simp [processBufferF, bindex]
  | succ f1 ih =>
    intro f2 buf h1 h2
    match f2 with
    | 0 =>
      have hbuf : buf = [] := List.length_eq_zero.mp (by omega)
      subst hbuf
      simp [processBufferF, bindex]
    | f2 + 1 =>
      simp only [processBufferF]
      cases hb : bindex 0xD3 buf with
      | none => rfl
      | some i =>
        dsimp only
        split_ifs with h3 hf
        · rfl
        · rfl
        · rw [ih f2 _ (by rw [List.length_drop]; omega) (by rw [List.length_drop]; omega)]

theorem pb_none (buf : List Nat) (h : bindex 0xD3 buf = none) :
    processBuffer buf = ([], []) := by
  cases buf with
  | nil => rfl
  | cons a t => simp [processBuffer, processBufferF, h]

theorem pb_short (buf : List Nat) (i : Nat) (h : bindex 0xD3 buf = some i)
    (h3 : buf.length - i < 3) :
    processBuffer buf = ([], buf.drop i) := by
  cases buf with
  | nil => simp [bindex] at h
  | cons a t =>
    simp only [processBuffer, List.length_cons, processBufferF, h]
    simp only [List.length_cons] at h3
    rw [if_pos h3]

theorem pb_wait (buf : List Nat) (i : Nat) (h : bindex 0xD3 buf = some i)
    (h3 : ¬ buf.length - i < 3)
    (hf : buf.length - i < 3 + declLen ((buf.drop i).getD 1 0) ((buf.drop i).getD 2 0) + 3) :
    processBuffer buf = ([], buf.drop i) := by
  cases buf with
  | nil => simp [bindex] at h
  | cons a t =>
    simp only [processBuffer, List.length_cons, processBufferF, h]
    simp only [List.length_cons] at h3 hf
    rw [if_neg h3, if_pos hf]

theorem pb_step (buf : List Nat) (i : Nat) (h : bindex 0xD3 buf = some i)
    (h3 : ¬ buf.length - i < 3)
    (hf : ¬ buf.length - i < 3 + declLen ((buf.drop i).getD 1 0) ((buf.drop i).getD 2 0) + 3) :
    processBuffer buf =
      ((buf.drop i).take (3 + declLen ((buf.drop i).getD 1 0) ((buf.drop i).getD 2 0) + 3) ::
        (processBuffer (buf.drop
          (i + (3 + declLen ((buf.drop i).getD 1 0) ((buf.drop i).getD 2 0) + 3)))).1,
       (processBuffer (buf.drop
          (i + (3 + declLen ((buf.drop i).getD 1 0) ((buf.drop i).getD 2 0) + 3)))).2) := by
  cases buf with
  | nil => simp [bindex] at h
  | cons a t =>
    simp only [processBuffer, List.length_cons, processBufferF, h]
    simp only [List.length_cons] at h3 hf
    rw [if_neg h3, if_neg hf]
    rw [processBufferF_congr t.length
      (List.drop (i + (3 + declLen ((List.drop i (a :: t)).getD 1 0)
        ((List.drop i (a :: t)).getD 2 0) + 3)) (a :: t)).length _
      (by rw [List.length_drop]; simp only [List.length_cons]; omega) (le_refl _)]

/-! ## Outbound tunnel split (`send_serial_bytes`) lemmas -/

theorem send_serial_bytesF_congr :
    ∀ f1 f2 l, l.length ≤ f1 → l.length ≤ f2 →
    send_serial_bytesF f1 l = send_serial_bytesF f2 l := by
  intro f1
  induction f1 with
  | zero =>
    intro f2 l h1 _
    have hl : l = [] := List.length_eq_zero.mp (by omega)
    subst hl
    cases f2 <;> simp [send_serial_bytesF]
  | succ f1 ih =>
    intro f2 l h1 h2
    match f2, l with
    | 0, l =>
      have hl : l = [] := List.length_eq_zero.mp (by omega)
      subst hl
      simp [send_serial_bytesF]
    | f2 + 1, [] => simp [send_serial_bytesF]
    | f2 + 1, b :: rest =>
      simp only [send_serial_bytesF]
      rw [ih f2 _ (by rw [List.length_drop]; simp only [List.length_cons] at *; omega)
        (by rw [List.length_drop]; simp only [List.length_cons] at *; omega)]

theorem ssb_nil : send_serial_bytes [] = [] := rfl

theorem ssb_cons (b : Nat) (rest : List Nat) :
    send_serial_bytes (b :: rest) =
      (((b :: rest).take 70).length,
        if ((b :: rest).take 70).length < 70 then
          (b :: rest).take 70 ++ List.replicate (70 - ((b :: rest).take 70).length) 0
        else (b :: rest).take 70) :: send_serial_bytes ((b :: rest).drop 70) := by
  simp only [send_serial_bytes, List.length_cons, send_serial_bytesF]
  rw [send_serial_bytesF_congr rest.length (List.drop 70 (b :: rest)).length _
    (by rw [List.length_drop]; simp only [List.length_cons] at *; omega) (le_refl _)]

theorem ssb_eq_nil_iff (data : List Nat) : send_serial_bytes data = [] ↔ data = [] := by
  cases data with
  | nil => simp [ssb_nil]
  | cons b rest => rw [ssb_cons]; simp

theorem ssb_length : ∀ n (data : List Nat), data.length ≤ n →
    (send_serial_bytes data).length = (data.length + 69) / 70 := by
  intro n
  induction n with
  | zero =>
    intro data h
    have hl : data = [] := List.length_eq_zero.mp (by omega)
    subst hl
    simp [ssb_nil]
  | succ n ih =>
    intro data h
    cases data with
    | nil => simp [ssb_nil]
    | cons b rest =>
      rw [ssb_cons]
      rw [List.length_cons, ih _ (by rw [List.length_drop]; simp only [List.length_cons] at *; omega)]
      rw [List.length_drop]
      simp only [List.length_cons]
      omega

theorem ssb_join : ∀ n (data : List Nat), data.length ≤ n →
    ((send_serial_bytes data).map fun m => m.2.take m.1).flatten = data := by
  intro n
  induction n with
  | zero =>
    intro data h
    have hl : data = [] := List.length_eq_zero.mp (by omega)
    subst hl
    simp [ssb_nil]
  | succ n ih =>
    intro data h
    cases data with
    | nil => simp [ssb_nil]
    | cons b rest =>
      rw [ssb_cons]
      simp only [List.map_cons, List.flatten_cons]
      rw [ih _ (by rw [List.length_drop]; simp only [List.length_cons] at *; omega)]
      have htake : (if ((b :: rest).take 70).length < 70 then
          (b :: rest).take 70 ++ List.replicate (70 - ((b :: rest).take 70).length) 0
        else (b :: rest).take 70).take ((b :: rest).take 70).length = (b :: rest).take 70 := by
        split_ifs with hlt
        · rw [List.take_left]
        · rw [List.take_length]
      rw [htake, List.take_append_drop]

theorem ssb_mem : ∀ n (data : List Nat), data.length ≤ n →
    ∀ m ∈ send_serial_bytes data,
      m.2.length = 70 ∧ 0 < m.1 ∧ m.1 ≤ 70 ∧
      m.2.drop m.1 = List.replicate (70 - m.1) 0 := by
  intro n
  induction n with
  | zero =>
    intro data h
    have hl : data = [] := List.length_eq_zero.mp (by omega)
    subst hl
    simp [ssb_nil]
  | succ n ih =>
    intro data h
    cases data with
    | nil => simp [ssb_nil]
    | cons b rest =>
      rw [ssb_cons]
      intro m hm
      rcases List.mem_cons.mp hm with hm | hm
      · subst hm
        have hlen : ((b :: rest).take 70).length = min 70 (rest.length + 1) := by
          rw [List.length_take]; simp
        refine ⟨?_, ?_, ?_, ?_⟩
        · dsimp only
          split_ifs with hlt
          · rw [List.length_append, List.length_replicate]; omega
          · omega
        · dsimp only; omega
        · dsimp only; omega
        · dsimp only
          split_ifs with hlt
          · rw [List.drop_left]
          · have : ((b :: rest).take 70).length = 70 := by omega
            rw [this]
            rw [List.drop_eq_nil_iff.mpr (by omega)]
            have h70 : 70 - 70 = 0 := by omega
            rw [h70, List.replicate_zero]
      · exact ih _ (by rw [List.length_drop]; simp only [List.length_cons] at *; omega) m hm

theorem ssb_dropLast : ∀ n (data : List Nat), data.length ≤ n →
    ∀ m ∈ (send_serial_bytes data).dropLast, m.1 = 70 := by
  intro n
  induction n with
  | zero =>
    intro data h
    have hl : data = [] := List.length_eq_zero.mp (by omega)
    subst hl
    simp [ssb_nil]
  | succ n ih =>
    intro data h
    cases data with
    | nil => simp [ssb_nil]
    | cons b rest =>
      rw [ssb_cons]
      by_cases hrest : send_serial_bytes ((b :: rest).drop 70) = []
      · rw [hrest]
        simp
      · rw [List.dropLast_cons_of_ne_nil hrest]
        intro m hm
        rcases List.mem_cons.mp hm with hm | hm
        · subst hm
          have hne : (b :: rest).drop 70 ≠ [] := by
            intro hc
            exact hrest (by rw [hc]; rfl)
          have : 70 < (b :: rest).length := by
            by_contra hle
            exact hne (List.drop_eq_nil_iff.mpr (by omega))
          dsimp only
          rw [List.length_take]
          simp only [List.length_cons] at this ⊢
          omega
        · exact ih _ (by rw [List.length_drop]; simp only [List.length_cons] at *; omega) m hm

theorem ssb_last : ∀ n (data : List Nat), data.length ≤ n →
    ((send_serial_bytes data).getLast?).map Prod.fst =
      if data.length = 0 then none
      else some (if data.length % 70 = 0 then 70 else data.length % 70) := by
  intro n
  induction n with
  | zero =>
    intro data h
    have hl : data = [] := List.length_eq_zero.mp (by omega)
    subst hl
    simp [ssb_nil]
  | succ n ih =>
    intro data h
    cases data with
    | nil => simp [ssb_nil]
    | cons b rest =>
      rw [ssb_cons]
      by_cases hrest : send_serial_bytes ((b :: rest).drop 70) = []
      · have hnil : (b :: rest).drop 70 = [] := (ssb_eq_nil_iff _).mp hrest
        have hle : (b :: rest).length ≤ 70 := by
          have := List.drop_eq_nil_iff.mp hnil
          omega
        rw [hrest]
        simp only [List.getLast?_singleton, Option.map_some']
        have hlen : ((b :: rest).take 70).length = (b :: rest).length := by
          rw [List.length_take]; omega
        rw [hlen]
        simp only [List.length_cons]
        simp only [List.length_cons] at hle
        have h1 : rest.length + 1 ≠ 0 := by omega
        rw [if_neg h1]
        by_cases hmod : (rest.length + 1) % 70 = 0
        · have : rest.length + 1 = 70 := by omega
          rw [if_pos hmod, this]
        · rw [if_neg hmod]
          have : (rest.length + 1) % 70 = rest.length + 1 := by omega
          rw [this]
      · rw [List.getLast?_cons]
        have hsome : ∃ x, (send_serial_bytes ((b :: rest).drop 70)).getLast? = some x := by
          cases hx : (send_serial_bytes ((b :: rest).drop 70)).getLast? with
          | none => exact absurd (List.getLast?_eq_none_iff.mp hx) hrest
          | some x => exact ⟨x, rfl⟩
        obtain ⟨x, hx⟩ := hsome
        rw [hx]
        have hih := ih ((b :: rest).drop 70) (by rw [List.length_drop]; simp only [List.length_cons] at *; omega)
        rw [hx] at hih
        have hne : (b :: rest).drop 70 ≠ [] := fun hc => hrest (by rw [hc]; rfl)
        have hgt : 70 < (b :: rest).length := by
          by_contra hle2
          exact hne (List.drop_eq_nil_iff.mpr (by omega))
        rw [List.length_drop] at hih
        simp only [List.length_cons] at hih hgt ⊢
        have hd : rest.length + 1 - 70 ≠ 0 := by omega
        rw [if_neg hd] at hih
        simp only [Option.getD_some, Option.map_some'] at hih ⊢
        rw [hih]
        have h1 : rest.length + 1 ≠ 0 := by omega
        rw [if_neg h1]
        have hmeq : (rest.length + 1 - 70) % 70 = (rest.length + 1) % 70 := by omega
        rw [hmeq]

/-- C2: for every payload of length L, `send_serial_bytes` transmits exactly
`ceil(L/70)` chunks; every transmitted data field is exactly 70 bytes, each
`count` is in `1..70` with the data field zero-padded beyond `count`; every
chunk except possibly the last has `count = 70`, the last has
`count = L mod 70` (or 70 when L is a positive multiple of 70); and the
`count`-prefixes of the chunks concatenate back to the payload. -/
theorem send_serial_bytes_spec (data : List Nat) :
    (send_serial_bytes data).length = (data.length + 69) / 70 ∧
    (∀ m ∈ send_serial_bytes data, m.2.length = 70 ∧ 0 < m.1 ∧ m.1 ≤ 70 ∧
      m.2.drop m.1 = List.replicate (70 - m.1) 0) ∧
    (∀ m ∈ (send_serial_bytes data).dropLast, m.1 = 70) ∧
    ((send_serial_bytes data).getLast?).map Prod.fst =
      (if data.length = 0 then none
       else some (if data.length % 70 = 0 then 70 else data.length % 70)) ∧
    ((send_serial_bytes data).map fun m => m.2.take m.1).flatten = data := by
  refine ⟨ssb_length data.length data (le_refl _), ?_, ?_, ?_, ?_⟩
  · intro m hm
    exact ssb_mem data.length data (le_refl _) m hm
  · exact ssb_dropLast data.length data (le_refl _)
  · exact ssb_last data.length data (le_refl _)
  · exact ssb_join data.length data (le_refl _)

set_option maxRecDepth 4000 in
theorem send_serial_bytes_spec_witness :
    (send_serial_bytes (List.replicate 150 7)).length = 3 ∧
    ((send_serial_bytes (List.replicate 150 7)).map fun m => m.2.take m.1).flatten =
      List.replicate 150 7 ∧
    (send_serial_bytes (List.replicate 150 7)).map Prod.fst = [70, 70, 10] := by
  have h := send_serial_bytes_spec (List.replicate 150 7)
  refine ⟨?_, h.2.2.2.2, by decide⟩
  rw [h.1, List.length_replicate]

/-! ## Broadcast relay (`ClientManager.broadcast`) lemmas -/

theorem broadcastSweep_all_ok (failing : Nat → Bool) :
    ∀ l : List Nat, (∀ c ∈ l, failing c = false) → broadcastSweep failing l = (l, []) := by
  intro l
  induction l with
  | nil => intro _; rfl
  | cons c cs ih =>
    intro h
    have hc : failing c = false := h c (by simp)
    have hcs : ∀ x ∈ cs, failing x = false := fun x hx => h x (by simp [hx])
    simp [broadcastSweep, ih hcs, hc]

theorem broadcastSweep_single_fail (failing : Nat → Bool) :
    ∀ (l : List Nat) (j : Nat), j ∈ l → l.Nodup → failing j = true →
    (∀ c ∈ l, c ≠ j → failing c = false) →
    broadcastSweep failing l = (l.erase j, [j]) := by
  intro l
  induction l with
  | nil => intro j hj; simp at hj
  | cons c cs ih =>
    intro j hj hnd hfj hothers
    by_cases hcj : c = j
    · subst hcj
      have hnotin : c ∉ cs := (List.nodup_cons.mp hnd).1
      have hcs : ∀ x ∈ cs, failing x = false := by
        intro x hx
        exact hothers x (by simp [hx]) (fun hxc => hnotin (hxc ▸ hx))
      simp [broadcastSweep, broadcastSweep_all_ok failing cs hcs, hfj,
        List.erase_cons_head]
    · have hj' : j ∈ cs := by
        rcases List.mem_cons.mp hj with h | h
        · exact absurd h.symm hcj
        · exact h
      have hc : failing c = false := hothers c (by simp) hcj
      have hrec := ih j hj' (List.nodup_cons.mp hnd).2 hfj
        (fun x hx hxj => hothers x (by simp [hx]) hxj)
      rw [List.erase_cons_tail (by simp [hcj])]
      simp [broadcastSweep, hrec, hc]

/-- C3: broadcasting to a registry of `k` distinct active subscribers where
exactly subscriber `j` fails on write delivers the data, in registry order,
to exactly the other `k - 1` subscribers; afterwards `j` is absent from the
registry, `j`'s sink is the only one closed, and the registry holds `k - 1`
subscribers. -/
theorem broadcast_single_failure (clients : List Nat) (j : Nat) (failing : Nat → Bool)
    (hnd : clients.Nodup) (hj : j ∈ clients) (hfj : failing j = true)
    (hothers : ∀ c ∈ clients, c ≠ j → failing c = false) :
    (broadcast failing clients).2.1 = clients.erase j ∧
    (broadcast failing clients).1 = clients.erase j ∧
    j ∉ (broadcast failing clients).1 ∧
    (broadcast failing clients).1.length = clients.length - 1 ∧
    (broadcast failing clients).2.2 = [j] := by
  have hsweep := broadcastSweep_single_fail failing clients j hj hnd hfj hothers
  have hbr : broadcast failing clients = (clients.erase j, clients.erase j, [j]) := by
    simp [broadcast, hsweep]
  rw [hbr]
  refine ⟨rfl, rfl, hnd.not_mem_erase, ?_, rfl⟩
  exact List.length_erase_of_mem hj

theorem broadcast_single_failure_witness :
    (broadcast (fun c => c == 2) [1, 2, 3]).2.1 = [1, 3] ∧
    (broadcast (fun c => c == 2) [1, 2, 3]).1 = [1, 3] ∧
    2 ∉ (broadcast (fun c => c == 2) [1, 2, 3]).1 ∧
    (broadcast (fun c => c == 2) [1, 2, 3]).1.length = 2 ∧
    (broadcast (fun c => c == 2) [1, 2, 3]).2.2 = [2] := by
  have h := broadcast_single_failure [1, 2, 3] 2 (fun c => c == 2)
    (by decide) (by decide) (by decide) (by decide)
  exact ⟨h.1, h.2.1, h.2.2.1, h.2.2.2.1, h.2.2.2.2⟩

/-! ## Inbound passthrough forwarding -/

theorem is_all_zero_iff (l : List Nat) : is_all_zero l = true ↔ ∀ b ∈ l, b = 0 := by
  induction l with
  | nil => simp [is_all_zero]
  | cons b rest ih =>
    by_cases hb : b = 0
    · simp [is_all_zero, hb, ih]
    · simp [is_all_zero, hb]

/-- C7 counterexample: in `uPrecise_forward.mavlink_loop` a matching
message with `count > 0` whose delivered payload is all zero is still
forwarded to the TCP client (the all-zero test there only suppresses
console printing), contradicting the claim that such payloads are
suppressed from the ingress path. -/
theorem uPrecise_forwards_all_zero_payload :
    is_all_zero (([0, 0, 0, 0] : List Nat).take 3) = true ∧
    uPrecise_forward_step 3 3 3 [0, 0, 0, 0] = some [0, 0, 0] := by decide

/-- C7 (amended): in `rtk_bridge.gps2_to_tcp_loop`, a matching message with
`count > 0` has its payload suppressed exactly when the delivered bytes are
all zero and forwarded otherwise; in the `uPrecise_forward.mavlink_loop`
variant the payload is forwarded to the TCP client unconditionally. -/
theorem gps2_suppresses_all_zero_payload (device msgDevice msgCount : Nat)
    (msgData : List Nat) (hc : 0 < msgCount) (hd : msgDevice = device) :
    (is_all_zero (msgData.take msgCount) = true →
      gps2_to_tcp_step device msgDevice msgCount msgData = none) ∧
    ((∃ b ∈ msgData.take msgCount, b ≠ 0) →
      gps2_to_tcp_step device msgDevice msgCount msgData = some (msgData.take msgCount)) ∧
    uPrecise_forward_step device msgDevice msgCount msgData = some (msgData.take msgCount) := by
  refine ⟨?_, ?_, ?_⟩
  · intro hz
    simp [gps2_to_tcp_step, hc, hd, hz]
  · intro hnz
    have hz : is_all_zero (msgData.take msgCount) = false := by
      rcases hnz with ⟨b, hb, hb0⟩
      rcases hez : is_all_zero (msgData.take msgCount) with _ | _
      · rfl
      · exact absurd ((is_all_zero_iff _).mp hez b hb) hb0
    simp [gps2_to_tcp_step, hc, hd, hz]
  · simp [uPrecise_forward_step, hc, hd]

theorem gps2_suppresses_all_zero_payload_witness :
    gps2_to_tcp_step 3 3 2 [0, 0, 9] = none ∧
    gps2_to_tcp_step 3 3 3 [0, 0, 9] = some [0, 0, 9] ∧
    uPrecise_forward_step 3 3 2 [0, 0, 9] = some [0, 0] := by
  have h1 := gps2_suppresses_all_zero_payload 3 3 2 [0, 0, 9] (by decide) rfl
  have h2 := gps2_suppresses_all_zero_payload 3 3 3 [0, 0, 9] (by decide) rfl
  exact ⟨h1.1 (by decide), h2.2.1 ⟨9, by decide, by decide⟩, h1.2.2⟩

/-! ## Handshake classification -/

/-- C10: an empty response buffer is classified as the unexpected-response
error carrying the empty status line: no success, no Session. -/
theorem check_response_header_empty :
    check_response_header [] = NtripResponse.unexpected [] := by decide

/-- C5 counterexample: the success test runs before the 401 test, so the
response `"ICY 200 401\r\n\r\n"` — whose status line contains `"401"` — is
classified as a success and a session (header text plus leading payload)
is returned, contradicting the claim that every status line containing
`"401"` yields the authentication-failure classification. -/
theorem check_response_header_200_beats_401 :
    hasSub [52, 48, 49]
      (statusLineOf [73, 67, 89, 32, 50, 48, 48, 32, 52, 48, 49, 13, 10, 13, 10]) = true ∧
    check_response_header [73, 67, 89, 32, 50, 48, 48, 32, 52, 48, 49, 13, 10, 13, 10] =
      NtripResponse.success [73, 67, 89, 32, 50, 48, 48, 32, 52, 48, 49, 13, 10, 13, 10] [] := by
  decide

/-- C5 (amended): every response whose status line contains `"401"` and
neither starts with `"ICY 200"` nor contains `" 200 "` is classified as an
authentication failure and no session is returned. -/
theorem check_response_header_401_auth (header : List Nat)
    (h401 : hasSub [52, 48, 49] (statusLineOf header) = true)
    (hicy : leadsWith [73, 67, 89, 32, 50, 48, 48] (statusLineOf header) = false)
    (h200 : hasSub [32, 50, 48, 48, 32] (statusLineOf header) = false) :
    check_response_header header = NtripResponse.authFailed := by
  simp only [check_response_header]
  rw [if_neg (by simp [hicy, h200]), if_pos (by simp [h401])]

theorem check_response_header_401_auth_witness :
    check_response_header [72, 84, 84, 80, 32, 52, 48, 49, 13, 10, 13, 10] =
      NtripResponse.authFailed :=
  check_response_header_401_auth [72, 84, 84, 80, 32, 52, 48, 49, 13, 10, 13, 10]
    (by decide) (by decide) (by decide)

/-! ## Validation loop (`validate_rtcm_data`) lemmas -/

theorem getD_drop_add (l : List Nat) : ∀ (k m d : Nat),
    (l.drop k).getD m d = l.getD (k + m) d := by
  induction l with
  | nil => intro k m d; simp
  | cons a t ih =>
    intro k m d
    cases k with
    | zero => simp
    | succ k =>
      rw [List.drop_succ_cons]
      have : k + 1 + m = (k + m) + 1 := by omega
      rw [this, List.getD_cons_succ, ih]

theorem getD_mem_or (l : List Nat) : ∀ (n d : Nat), l.getD n d ∈ l ∨ l.getD n d = d := by
  induction l with
  | nil => intro n d; simp
  | cons a t ih =>
    intro n d
    cases n with
    | zero => simp
    | succ n =>
      rw [List.getD_cons_succ]
      rcases ih n d with h | h
      · exact Or.inl (List.mem_cons_of_mem a h)
      · exact Or.inr h

theorem declLen_lt (h0 h1 : Nat) (h : h1 < 256) : declLen h0 h1 < 1024 := by
  have h2 : (h0 &&& 3) <<< 8 < 1024 := by
    have ha : h0 &&& 3 ≤ 3 := @Nat.and_le_right h0 3
    rw [Nat.shiftLeft_eq]
    calc (h0 &&& 3) * 2 ^ 8 ≤ 3 * 2 ^ 8 := Nat.mul_le_mul_right _ ha
    _ < 1024 := by norm_num
  have hall := @Nat.or_lt_two_pow ((h0 &&& 3) <<< 8) h1 10 (by simpa using h2) (by omega)
  simpa [declLen] using hall

theorem validateLoopF_congr :
    ∀ f1 f2 buf, buf.length ≤ f1 → buf.length ≤ f2 →
    ∀ vf ts, validateLoopF f1 buf vf ts = validateLoopF f2 buf vf ts := by
  intro f1
  induction f1 with
  | zero =>
    intro f2 buf h1 _ vf ts
    have hbuf : buf = [] := List.length_eq_zero.mp (by omega)
    subst hbuf
    cases f2 <;> simp [validateLoopF, bindex]
  | succ f1 ih =>
    intro f2 buf h1 h2 vf ts
    match f2 with
    | 0 =>
      have hbuf : buf = [] := List.length_eq_zero.mp (by omega)
      subst hbuf
      simp [validateLoopF, bindex]
    | f2 + 1 =>
      simp only [validateLoopF]
      cases hb : bindex 0xD3 buf with
      | none => rfl
      | some i =>
        dsimp only
        split_ifs <;>
          first
            | rfl
            | rw [ih f2 _ (by rw [List.length_drop]; omega)
                (by rw [List.length_drop]; omega)]

theorem vl_nil (vf : Nat) (ts : List Nat) : validateLoop [] vf ts = ⟨[], vf, ts⟩ := rfl

theorem vl_step (buf : List Nat) (i vf : Nat) (ts : List Nat)
    (hb : bindex 0xD3 buf = some i)
    (h3 : ¬ buf.length - i < 3)
    (hf : ¬ buf.length - i < 3 + declLen ((buf.drop i).getD 1 0) ((buf.drop i).getD 2 0) + 3) :
    validateLoop buf vf ts =
      (if 6 ≤ ((buf.drop i).take
            (3 + declLen ((buf.drop i).getD 1 0) ((buf.drop i).getD 2 0) + 3)).length then
        (if 2 ≤ (framePayload ((buf.drop i).take
              (3 + declLen ((buf.drop i).getD 1 0) ((buf.drop i).getD 2 0) + 3))).length then
          (if 0 < msgTypeNat (framePayload ((buf.drop i).take
                (3 + declLen ((buf.drop i).getD 1 0) ((buf.drop i).getD 2 0) + 3))) then
            validateLoop (buf.drop
                (i + (3 + declLen ((buf.drop i).getD 1 0) ((buf.drop i).getD 2 0) + 3)))
              (vf + 1)
              (ts.insert (msgTypeNat (framePayload ((buf.drop i).take
                (3 + declLen ((buf.drop i).getD 1 0) ((buf.drop i).getD 2 0) + 3)))))
          else validateLoop (buf.drop
              (i + (3 + declLen ((buf.drop i).getD 1 0) ((buf.drop i).getD 2 0) + 3))) vf ts)
        else validateLoop (buf.drop
            (i + (3 + declLen ((buf.drop i).getD 1 0) ((buf.drop i).getD 2 0) + 3))) vf ts)
      else validateLoop (buf.drop
          (i + (3 + declLen ((buf.drop i).getD 1 0) ((buf.drop i).getD 2 0) + 3))) vf ts) := by
  cases buf with
  | nil => simp [bindex] at hb
  | cons a t =>
    simp only [validateLoop, List.length_cons, validateLoopF, hb]
    simp only [List.length_cons] at h3 hf
    rw [if_neg h3, if_neg hf]
    have hcg : ∀ vf ts, validateLoopF t.length
        (List.drop (i + (3 + declLen ((List.drop i (a :: t)).getD 1 0)
          ((List.drop i (a :: t)).getD 2 0) + 3)) (a :: t)) vf ts =
        validateLoopF (List.drop (i + (3 + declLen ((List.drop i (a :: t)).getD 1 0)
          ((List.drop i (a :: t)).getD 2 0) + 3)) (a :: t)).length
          (List.drop (i + (3 + declLen ((List.drop i (a :: t)).getD 1 0)
          ((List.drop i (a :: t)).getD 2 0) + 3)) (a :: t)) vf ts := by
      intro vf ts
      exact validateLoopF_congr t.length _ _
        (by rw [List.length_drop]; simp only [List.length_cons]; omega) (le_refl _) vf ts
    simp only [hcg]

theorem vl_inv_drop (buf : List Nat) (i : Nat) (hb : bindex 0xD3 buf = some i)
    (hbytes : ∀ b ∈ buf, b < 256) :
    (buf.drop i).getD 0 0 = 0xD3 ∧
    3 + declLen ((buf.drop i).getD 1 0) ((buf.drop i).getD 2 0) + 3 ≤ 1029 := by
  obtain ⟨hlt, hget, _⟩ := bindex_some_spec 0xD3 buf i hb
  constructor
  · rw [getD_drop_add]
    simpa using hget
  · have h2 : (buf.drop i).getD 2 0 < 256 := by
      rcases getD_mem_or (buf.drop i) 2 0 with h | h
      · exact hbytes _ (List.drop_subset i buf h)
      · omega
    have := declLen_lt ((buf.drop i).getD 1 0) ((buf.drop i).getD 2 0) h2
    omega

theorem vlF_buffer_inv : ∀ fuel (buf : List Nat) (vf : Nat) (ts : List Nat),
    buf.length ≤ fuel → (∀ b ∈ buf, b < 256) →
    (bindex 0xD3 (validateLoopF fuel buf vf ts).rtcm_buffer = none ∧
      (validateLoopF fuel buf vf ts).rtcm_buffer.length ≤ 1024) ∨
    ((validateLoopF fuel buf vf ts).rtcm_buffer.getD 0 0 = 0xD3 ∧
      (validateLoopF fuel buf vf ts).rtcm_buffer.length <
        3 + declLen ((validateLoopF fuel buf vf ts).rtcm_buffer.getD 1 0)
          ((validateLoopF fuel buf vf ts).rtcm_buffer.getD 2 0) + 3 ∧
      3 + declLen ((validateLoopF fuel buf vf ts).rtcm_buffer.getD 1 0)
          ((validateLoopF fuel buf vf ts).rtcm_buffer.getD 2 0) + 3 ≤ 1029) := by
  intro fuel
  induction fuel with
  | zero =>
    intro buf vf ts h1 _
    have hbuf : buf = [] := List.length_eq_zero.mp (by omega)
    subst hbuf
    exact Or.inl ⟨rfl, by simp [validateLoopF]⟩
  | succ fuel ih =>
    intro buf vf ts h1 hbytes
    simp only [validateLoopF]
    cases hb : bindex 0xD3 buf with
    | none =>
      dsimp only
      split_ifs with hcap
      · exact Or.inl ⟨rfl, by simp⟩
      · exact Or.inl ⟨hb, by show buf.length ≤ 1024; omega⟩
    | some i =>
      dsimp only
      split_ifs with h3 hf h6 h2 hmt
      · obtain ⟨hg0, hbound⟩ := vl_inv_drop buf i hb hbytes
        refine Or.inr ⟨hg0, ?_, hbound⟩
        show (buf.drop i).length <
          3 + declLen ((buf.drop i).getD 1 0) ((buf.drop i).getD 2 0) + 3
        rw [List.length_drop]
        omega
      · obtain ⟨hg0, hbound⟩ := vl_inv_drop buf i hb hbytes
        refine Or.inr ⟨hg0, ?_, hbound⟩
        show (buf.drop i).length <
          3 + declLen ((buf.drop i).getD 1 0) ((buf.drop i).getD 2 0) + 3
        rw [List.length_drop]
        omega
      · exact ih _ _ _ (by rw [List.length_drop]; omega)
          (fun b hbm => hbytes b (List.drop_subset _ buf hbm))
      · exact ih _ _ _ (by rw [List.length_drop]; omega)
          (fun b hbm => hbytes b (List.drop_subset _ buf hbm))
      · exact ih _ _ _ (by rw [List.length_drop]; omega)
          (fun b hbm => hbytes b (List.drop_subset _ buf hbm))
      · exact ih _ _ _ (by rw [List.length_drop]; omega)
          (fun b hbm => hbytes b (List.drop_subset _ buf hbm))

/-- C8: after every `validate_rtcm_data` call the retained buffer either
contains no sync byte and holds at most 1024 bytes of unsynced garbage, or
begins at the sync marker (bytes before it discarded) and holds fewer
bytes than the in-flight frame `3 + declaredLength + 3`, itself at most
1029 bytes. -/
theorem decode_buffer_invariant (s : RoverRtcm) (data : List Nat)
    (hbytes : ∀ b ∈ s.rtcm_buffer ++ data, b < 256) :
    (bindex 0xD3 (validate_rtcm_data s data).rtcm_buffer = none ∧
      (validate_rtcm_data s data).rtcm_buffer.length ≤ 1024) ∨
    ((validate_rtcm_data s data).rtcm_buffer.getD 0 0 = 0xD3 ∧
      (validate_rtcm_data s data).rtcm_buffer.length <
        3 + declLen ((validate_rtcm_data s data).rtcm_buffer.getD 1 0)
          ((validate_rtcm_data s data).rtcm_buffer.getD 2 0) + 3 ∧
      3 + declLen ((validate_rtcm_data s data).rtcm_buffer.getD 1 0)
          ((validate_rtcm_data s data).rtcm_buffer.getD 2 0) + 3 ≤ 1029) := by
  have h := vlF_buffer_inv (s.rtcm_buffer ++ data).length (s.rtcm_buffer ++ data)
    s.rtcm_valid_frames s.rtcm_msg_types (le_refl _) hbytes
  simpa [validate_rtcm_data, validateLoop] using h

theorem decode_buffer_invariant_witness :
    (bindex 0xD3 (validate_rtcm_data ⟨[], 0, []⟩ [211]).rtcm_buffer = none ∧
      (validate_rtcm_data ⟨[], 0, []⟩ [211]).rtcm_buffer.length ≤ 1024) ∨
    ((validate_rtcm_data ⟨[], 0, []⟩ [211]).rtcm_buffer.getD 0 0 = 0xD3 ∧
      (validate_rtcm_data ⟨[], 0, []⟩ [211]).rtcm_buffer.length <
        3 + declLen ((validate_rtcm_data ⟨[], 0, []⟩ [211]).rtcm_buffer.getD 1 0)
          ((validate_rtcm_data ⟨[], 0, []⟩ [211]).rtcm_buffer.getD 2 0) + 3 ∧
      3 + declLen ((validate_rtcm_data ⟨[], 0, []⟩ [211]).rtcm_buffer.getD 1 0)
          ((validate_rtcm_data ⟨[], 0, []⟩ [211]).rtcm_buffer.getD 2 0) + 3 ≤ 1029) :=
  decode_buffer_invariant ⟨[], 0, []⟩ [211] (by decide)

/-- C6 counterexample: a complete well-formed frame whose derived message
type is 0 is extracted (the decoder removes it from the buffer and
`processBuffer` yields it as a frame) but `rtcm_valid_frames` is not
incremented, contradicting the claim that such frames are still counted. -/
theorem type_zero_frame_not_counted :
    wfFrame [211, 0, 2, 0, 5, 1, 1, 1] ∧
    msgTypeNat (framePayload [211, 0, 2, 0, 5, 1, 1, 1]) = 0 ∧
    (processBuffer [211, 0, 2, 0, 5, 1, 1, 1]).1 = [[211, 0, 2, 0, 5, 1, 1, 1]] ∧
    validate_rtcm_data ⟨[], 0, []⟩ [211, 0, 2, 0, 5, 1, 1, 1] = ⟨[], 0, []⟩ := by
  decide

theorem wfFrame_shape (f : List Nat) (h : wfFrame f) :
    ∃ b1 b2 t, f = 211 :: b1 :: b2 :: t ∧ f.length = 3 + declLen b1 b2 + 3 := by
  obtain ⟨h0, hlen⟩ := h
  match f with
  | [] => simp [List.getD_nil] at h0
  | [a] =>
    simp only [List.length_cons, List.length_nil] at hlen
    omega
  | [a, b] =>
    simp only [List.length_cons, List.length_nil] at hlen
    omega
  | a :: b1 :: b2 :: t =>
    have ha : a = 211 := by simpa using h0
    subst ha
    refine ⟨b1, b2, t, rfl, ?_⟩
    simpa using hlen

/-- C6 (amended): when the decoder of `validate_rtcm_data` extracts a
complete frame whose payload is shorter than 2 bytes or whose derived
message type is 0, the frame is consumed (removed from the buffer, here
leaving it empty) but the valid-frame counter is not incremented and no
message type is recorded. -/
theorem frame_without_usable_type_not_counted (vf : Nat) (ts : List Nat) (n f : List Nat)
    (hn : noSync n) (hwf : wfFrame f)
    (hbad : (framePayload f).length < 2 ∨ msgTypeNat (framePayload f) = 0) :
    validate_rtcm_data ⟨[], vf, ts⟩ (n ++ f) = ⟨[], vf, ts⟩ := by
  obtain ⟨b1, b2, t, hfeq, hflen⟩ := wfFrame_shape f hwf
  subst hfeq
  simp only [validate_rtcm_data, List.nil_append]
  have hb : bindex 0xD3 (n ++ 211 :: b1 :: b2 :: t) = some n.length :=
    bindex_append_cons 0xD3 n (b1 :: b2 :: t) hn
  have hdrop : (n ++ 211 :: b1 :: b2 :: t).drop n.length = 211 :: b1 :: b2 :: t :=
    List.drop_left n _
  have hlenapp : (n ++ 211 :: b1 :: b2 :: t).length = n.length + (211 :: b1 :: b2 :: t).length :=
    List.length_append n _
  have hgd1 : ((n ++ 211 :: b1 :: b2 :: t).drop n.length).getD 1 0 = b1 := by
    rw [hdrop]; rfl
  have hgd2 : ((n ++ 211 :: b1 :: b2 :: t).drop n.length).getD 2 0 = b2 := by
    rw [hdrop]; rfl
  have h3 : ¬ (n ++ 211 :: b1 :: b2 :: t).length - n.length < 3 := by
    rw [hlenapp]
    simp only [List.length_cons] at hflen ⊢
    omega
  have hf2 : ¬ (n ++ 211 :: b1 :: b2 :: t).length - n.length <
      3 + declLen (((n ++ 211 :: b1 :: b2 :: t).drop n.length).getD 1 0)
        (((n ++ 211 :: b1 :: b2 :: t).drop n.length).getD 2 0) + 3 := by
    rw [hgd1, hgd2, hlenapp]
    omega
  rw [vl_step (n ++ 211 :: b1 :: b2 :: t) n.length vf ts hb h3 hf2]
  rw [hgd1, hgd2, hdrop]
  have htake : (211 :: b1 :: b2 :: t).take (3 + declLen b1 b2 + 3) = 211 :: b1 :: b2 :: t := by
    rw [← hflen, List.take_length]
  have hrest : (n ++ 211 :: b1 :: b2 :: t).drop (n.length + (3 + declLen b1 b2 + 3)) = [] := by
    rw [List.drop_eq_nil_iff, hlenapp, ← hflen]
  rw [htake, hrest]
  have h6 : 6 ≤ (211 :: b1 :: b2 :: t).length := by
    rw [hflen]; omega
  rw [if_pos h6]
  rcases hbad with hlt | h0
  · rw [if_neg (by omega)]
    exact vl_nil vf ts
  · by_cases h2 : 2 ≤ (framePayload (211 :: b1 :: b2 :: t)).length
    · rw [if_pos h2, h0, if_neg (by omega)]
      exact vl_nil vf ts
    · rw [if_neg h2]
      exact vl_nil vf ts

theorem frame_without_usable_type_not_counted_witness :
    validate_rtcm_data ⟨[], 5, [9]⟩ ([7] ++ [211, 0, 0, 1, 2, 3]) = ⟨[], 5, [9]⟩ :=
  frame_without_usable_type_not_counted 5 [9] [7] [211, 0, 0, 1, 2, 3]
    (by decide) (by decide) (Or.inl (by decide))

/-! ## Substring search specification lemmas -/

theorem leadsWith_mem : ∀ (pat m : List Nat), leadsWith pat m = true → ∀ x ∈ pat, x ∈ m := by
  intro pat
  induction pat with
  | nil => intro m _ x hx; simp at hx
  | cons a pa ih =>
    intro m h x hx
    match m with
    | [] => simp [leadsWith] at h
    | b :: lb =>
      simp only [leadsWith, Bool.and_eq_true, beq_iff_eq] at h
      rcases List.mem_cons.mp hx with hx | hx
      · exact List.mem_cons.mpr (Or.inl (by omega))
      · exact List.mem_cons.mpr (Or.inr (ih lb h.2 x hx))

theorem occursAt_cons_succ (pat : List Nat) (a : Nat) (t : List Nat) (j : Nat) :
    occursAt pat (a :: t) (j + 1) ↔ occursAt pat t j := Iff.rfl

theorem occursAt_zero (pat l : List Nat) : occursAt pat l 0 ↔ leadsWith pat l = true := Iff.rfl

theorem findSub_some_iff (pat : List Nat) :
    ∀ (l : List Nat) (i : Nat), findSub pat l = some i ↔ firstOccAt pat l i := by
  intro l
  induction l with
  | nil =>
    intro i
    cases hl : leadsWith pat [] with
    | true =>
      simp only [findSub, hl, if_true, Option.some.injEq]
      constructor
      · rintro rfl
        exact ⟨hl, fun j hj => by omega⟩
      · rintro ⟨hocc, hmin⟩
        by_contra hne
        exact hmin 0 (by omega) hl
    | false =>
      simp only [findSub, hl]
      constructor
      · intro h
        exact absurd h (by simp)
      · rintro ⟨hocc, _⟩
        have hocc' : leadsWith pat (List.drop i []) = true := hocc
        rw [List.drop_nil] at hocc'
        rw [hocc'] at hl
        exact absurd hl (by simp)
  | cons a t ih =>
    intro i
    cases hl : leadsWith pat (a :: t) with
    | true =>
      simp only [findSub, hl, if_true, Option.some.injEq]
      constructor
      · rintro rfl
        exact ⟨hl, fun j hj => by omega⟩
      · rintro ⟨hocc, hmin⟩
        by_contra hne
        exact hmin 0 (by omega) hl
    | false =>
      simp only [findSub, hl, Bool.false_eq_true, if_false, Option.map_eq_some']
      constructor
      · rintro ⟨i', hi', rfl⟩
        obtain ⟨hocc, hmin⟩ := (ih i').mp hi'
        refine ⟨hocc, ?_⟩
        intro j hj
        cases j with
        | zero =>
          intro hc
          have hc2 : leadsWith pat (a :: t) = true := hc
          rw [hc2] at hl
          exact absurd hl (by simp)
        | succ j => exact hmin j (by omega)
      · rintro ⟨hocc, hmin⟩
        cases i with
        | zero =>
          have : leadsWith pat (a :: t) = true := hocc
          rw [this] at hl
          exact absurd hl (by simp)
        | succ i =>
          refine ⟨i, (ih i).mpr ⟨hocc, ?_⟩, rfl⟩
          intro j hj
          exact hmin (j + 1) (by omega)

theorem findSub_none_iff (pat : List Nat) :
    ∀ l : List Nat, findSub pat l = none ↔ ∀ j, ¬ occursAt pat l j := by
  intro l
  induction l with
  | nil =>
    cases hl : leadsWith pat [] with
    | true =>
      simp only [findSub, hl, if_true]
      constructor
      · intro h
        exact absurd h (by simp)
      · intro h
        exact absurd hl (h 0)
    | false =>
      simp only [findSub, hl, Bool.false_eq_true, if_false, true_iff]
      intro j hc
      have hocc' : leadsWith pat (List.drop j []) = true := hc
      rw [List.drop_nil] at hocc'
      rw [hocc'] at hl
      exact absurd hl (by simp)
  | cons a t ih =>
    cases hl : leadsWith pat (a :: t) with
    | true =>
      simp only [findSub, hl, if_true]
      constructor
      · intro h
        exact absurd h (by simp)
      · intro h
        exact absurd hl (h 0)
    | false =>
      simp only [findSub, hl, Bool.false_eq_true, if_false, Option.map_eq_none']
      rw [ih]
      constructor
      · intro h j
        cases j with
        | zero =>
          intro hc
          have hc2 : leadsWith pat (a :: t) = true := hc
          rw [hc2] at hl
          exact absurd hl (by simp)
        | succ j => exact h j
      · intro h j
        exact h (j + 1)

theorem hasSub_false_of_ne (pat l : List Nat) (b0 : Nat) (hb0 : b0 ∈ pat)
    (hne : ∀ b ∈ l, b ≠ b0) : hasSub pat l = false := by
  unfold hasSub
  cases hfs : findSub pat l with
  | none => rfl
  | some j =>
    obtain ⟨hocc, _⟩ := (findSub_some_iff pat l j).mp hfs
    have hmem : b0 ∈ l.drop j := leadsWith_mem pat (l.drop j) hocc b0 hb0
    exact absurd rfl (hne b0 (List.drop_subset j l hmem))

/-! ## Header read loop (`connect_ntrip`) lemmas -/

theorem rh_nil (header : List Nat) : readHeaderLoop [] header = header := by
  by_cases h : 64 * 1024 ≤ header.length <;> simp [readHeaderLoop, h]

theorem rh_step (c : List Nat) (rest : List (List Nat)) (header : List Nat)
    (hcap : header.length < 64 * 1024) (hc : c ≠ [])
    (hnoise : ∀ b ∈ header ++ c, b = 65) :
    readHeaderLoop (c :: rest) header = readHeaderLoop rest (header ++ c) := by
  have hne : ∀ b ∈ header ++ c, b ≠ 13 := fun b hb => by rw [hnoise b hb]; omega
  have hne32 : ∀ b ∈ header ++ c, b ≠ 32 := fun b hb => by rw [hnoise b hb]; omega
  have h1 : hasSub [13, 10, 13, 10] (header ++ c) = false :=
    hasSub_false_of_ne _ _ 13 (by simp) hne
  have h2 : hasSub [73, 67, 89, 32, 50, 48, 48] (header ++ c) = false :=
    hasSub_false_of_ne _ _ 32 (by simp) hne32
  have h3 : hasSub [32, 50, 48, 48, 32] (header ++ c) = false :=
    hasSub_false_of_ne _ _ 32 (by simp) hne32
  simp only [readHeaderLoop, h1, h2, h3]
  rw [if_neg (by omega)]
  simp [hc]

theorem rh_noise : ∀ (chunks : List (List Nat)) (header : List Nat),
    (∀ b ∈ header, b = 65) → (∀ c ∈ chunks, (∀ b ∈ c, b = 65) ∧ c ≠ []) →
    header.length + (chunks.map List.length).sum ≤
      65535 + ((chunks.getLast?).map List.length).getD 0 →
    readHeaderLoop chunks header = header ++ chunks.flatten := by
  intro chunks
  induction chunks with
  | nil =>
    intro header _ _ _
    simp [rh_nil]
  | cons c rest ih =>
    intro header hh hcs hbound
    have hcprops := hcs c (by simp)
    have hclen : 0 < c.length := List.length_pos.mpr hcprops.2
    have hnoise : ∀ b ∈ header ++ c, b = 65 := by
      intro b hb
      rcases List.mem_append.mp hb with hb | hb
      · exact hh b hb
      · exact hcprops.1 b hb
    simp only [List.map_cons, List.sum_cons] at hbound
    cases rest with
    | nil =>
      simp only [List.getLast?_singleton, Option.map_some', Option.getD_some,
        List.map_nil, List.sum_nil] at hbound
      rw [rh_step c [] header (by omega) hcprops.2 hnoise, rh_nil]
      simp
    | cons r rs =>
      rw [List.getLast?_cons_cons] at hbound
      have hlast_le : (((r :: rs).getLast?).map List.length).getD 0 ≤
          ((r :: rs).map List.length).sum := by
        cases hlx : (r :: rs).getLast? with
        | none => simp
        | some x =>
          have hx : x ∈ r :: rs := List.mem_of_mem_getLast? hlx
          have hmx : x.length ∈ (r :: rs).map List.length :=
            List.mem_map_of_mem List.length hx
          simpa using List.single_le_sum (fun y _ => Nat.zero_le y) _ hmx
      rw [rh_step c (r :: rs) header (by omega) hcprops.2 hnoise]
      rw [ih (header ++ c) hnoise (fun x hx => hcs x (by simp [hx]))
        (by rw [List.length_append]; omega)]
      simp [List.flatten_cons, List.append_assoc]

set_option maxRecDepth 40000 in
/-- C9 counterexample: the 64 KiB cap is only checked before each receive,
and a receive adds up to 1024 bytes; 63 full chunks, one 1023-byte chunk
and one more full chunk of header-like noise leave 66559 bytes in the
header buffer when the loop terminates, exceeding 65536. -/
theorem header_read_exceeds_64k :
    64 * 1024 <
      (readHeaderLoop (List.replicate 63 (List.replicate 1024 65) ++
        [List.replicate 1023 65, List.replicate 1024 65]) []).length := by
  rw [rh_noise _ [] (by simp) ?hc ?hb]
  · rw [List.nil_append, List.length_flatten]
    simp [List.map_append, List.map_replicate, List.sum_append, List.sum_replicate,
      List.length_replicate]
  case hc =>
    intro c hc
    rcases List.mem_append.mp hc with h | h
    · have hc65 := List.eq_of_mem_replicate h
      subst hc65
      exact ⟨fun b hb => List.eq_of_mem_replicate hb, by simp⟩
    · simp only [List.mem_cons, List.not_mem_nil, or_false] at h
      rcases h with rfl | rfl
      · exact ⟨fun b hb => List.eq_of_mem_replicate hb, by simp⟩
      · exact ⟨fun b hb => List.eq_of_mem_replicate hb, by simp⟩
  case hb =>
    rw [List.getLast?_append]
    simp [List.map_append, List.map_replicate, List.sum_append, List.sum_replicate,
      List.length_replicate]

theorem rh_bound_aux : ∀ (chunks : List (List Nat)) (header : List Nat),
    (∀ c ∈ chunks, c.length ≤ 1024) →
    (readHeaderLoop chunks header).length ≤ max header.length 66559 := by
  intro chunks
  induction chunks with
  | nil =>
    intro header _
    rw [rh_nil]
    exact le_max_left _ _
  | cons c rest ih =>
    intro header hsz
    have hc : c.length ≤ 1024 := hsz c (by simp)
    simp only [readHeaderLoop]
    split_ifs with h1 h2 h3 h4
    · exact le_max_left _ _
    · exact le_max_left _ _
    · have : (header ++ c).length ≤ 66559 := by
        rw [List.length_append]
        omega
      exact le_trans this (le_max_right _ _)
    · have : (header ++ c).length ≤ 66559 := by
        rw [List.length_append]
        omega
      exact le_trans this (le_max_right _ _)
    · have hrec := ih (header ++ c) (fun x hx => hsz x (by simp [hx]))
      have hlen : (header ++ c).length ≤ 66559 := by
        rw [List.length_append]
        omega
      have : max (header ++ c).length 66559 = 66559 := max_eq_right hlen
      rw [this] at hrec
      exact le_trans hrec (le_max_right _ _)

/-- C9 (amended): the header buffer never exceeds 66559 bytes — the 64 KiB
cap (65536) is checked only before each receive, and one receive appends at
most 1024 bytes, so the buffer is bounded by 65535 + 1024 = 66559 rather
than by 65536. -/
theorem header_read_loop_bound (chunks : List (List Nat))
    (hsz : ∀ c ∈ chunks, c.length ≤ 1024) :
    (readHeaderLoop chunks []).length ≤ 66559 := by
  have h := rh_bound_aux chunks [] hsz
  simpa using h

theorem header_read_loop_bound_witness :
    (readHeaderLoop [[1, 2, 3]] []).length ≤ 66559 :=
  header_read_loop_bound [[1, 2, 3]] (by decide)

/-! ## Header split (`check_response_header`) characterization lemmas -/

theorem bindex_none_of_getD (b : Nat) :
    ∀ l : List Nat, (∀ j < l.length, l.getD j 0 ≠ b) → bindex b l = none := by
  intro l
  induction l with
  | nil => intro _; rfl
  | cons a t ih =>
    intro h
    have ha : a ≠ b := by
      have := h 0 (by simp)
      simpa using this
    have ht : ∀ j < t.length, t.getD j 0 ≠ b := by
      intro j hj
      have := h (j + 1) (by simp; omega)
      simpa using this
    simp [bindex, ha, ih ht]

theorem bindex_some_of_getD (b : Nat) :
    ∀ (l : List Nat) (i : Nat), i < l.length → l.getD i 0 = b →
    (∀ j < i, l.getD j 0 ≠ b) → bindex b l = some i := by
  intro l
  induction l with
  | nil => intro i hi; simp at hi
  | cons a t ih =>
    intro i hi hg hmin
    cases i with
    | zero =>
      have ha : a = b := by simpa using hg
      simp [bindex, ha]
    | succ i =>
      have ha : a ≠ b := by
        have := hmin 0 (by omega)
        simpa using this
      have hrec := ih i (by simp at hi; omega) (by simpa using hg)
        (fun j hj => by
          have := hmin (j + 1) (by omega)
          simpa using this)
      simp [bindex, ha, hrec]

theorem ctrlScanN_none_of (header : List Nat) :
    ∀ (n lo : Nat), (∀ j, lo ≤ j → j < lo + n → ¬ isCtrl (header.getD j 0)) →
    ctrlScanN header lo n = none := by
  intro n
  induction n with
  | zero => intro lo _; rfl
  | succ n ih =>
    intro lo h
    have hlo : ¬ isCtrl (header.getD lo 0) := h lo (le_refl _) (by omega)
    have hrec := ih (lo + 1) (fun j hj1 hj2 => h j (by omega) (by omega))
    simp only [ctrlScanN]
    rw [if_neg ?hn]
    · exact hrec
    case hn =>
      simp only [isCtrl] at hlo
      intro hc
      exact hlo ⟨hc.1, hc.2.1, hc.2.2.1, hc.2.2.2⟩

theorem ctrlScanN_some_of (header : List Nat) :
    ∀ (n lo i : Nat), lo ≤ i → i < lo + n → isCtrl (header.getD i 0) →
    (∀ j, lo ≤ j → j < i → ¬ isCtrl (header.getD j 0)) →
    ctrlScanN header lo n = some i := by
  intro n
  induction n with
  | zero => intro lo i h1 h2; omega
  | succ n ih =>
    intro lo i h1 h2 hc hmin
    by_cases hlo : isCtrl (header.getD lo 0)
    · have hieq : i = lo := by
        by_contra hne
        exact hmin lo (le_refl _) (by omega) hlo
      subst hieq
      simp only [ctrlScanN]
      rw [if_pos ?hp]
      case hp =>
        simp only [isCtrl] at hlo
        exact ⟨hlo.1, hlo.2.1, hlo.2.2.1, hlo.2.2.2⟩
    · have hne : i ≠ lo := fun hc2 => hlo (hc2 ▸ hc)
      have hrec := ih (lo + 1) i (by omega) (by omega) hc
        (fun j hj1 hj2 => hmin j (by omega) hj2)
      simp only [ctrlScanN]
      rw [if_neg ?hn]
      · exact hrec
      case hn =>
        simp only [isCtrl] at hlo
        intro hc2
        exact hlo ⟨hc2.1, hc2.2.1, hc2.2.2.1, hc2.2.2.2⟩

theorem noOcc_forall (pat h : List Nat) (hne : pat ≠ []) (hno : noOcc pat h) :
    ∀ j, ¬ occursAt pat h j := by
  intro j hocc
  by_cases hj : j < h.length
  · exact hno j hj hocc
  · have hdrop : h.drop j = [] := List.drop_eq_nil_iff.mpr (by omega)
    have hlw : leadsWith pat (h.drop j) = true := hocc
    rw [hdrop] at hlw
    match pat, hne with
    | p :: ps, _ => simp [leadsWith] at hlw

/-- C4 counterexample: for the accepted-as-success response
`"ICY 200 OK\n"` followed by the sync byte `0xD3`, the code's split point
is 12 (the whole buffer is header and the leading payload is empty)
although the first occurrence of `0xD3` after the bare-LF-terminated
status line is at position 11: the search starts two bytes past the start
of the line terminator, so with a bare LF it skips one byte. -/
theorem header_split_misses_sync_after_bare_lf :
    check_response_header [73, 67, 89, 32, 50, 48, 48, 32, 79, 75, 10, 211] =
      NtripResponse.success [73, 67, 89, 32, 50, 48, 48, 32, 79, 75, 10, 211] [] ∧
    header_end_pos [73, 67, 89, 32, 50, 48, 48, 32, 79, 75, 10, 211] = 12 ∧
    noOcc [13, 10, 13, 10] [73, 67, 89, 32, 50, 48, 48, 32, 79, 75, 10, 211] ∧
    noOcc [13, 10] [73, 67, 89, 32, 50, 48, 48, 32, 79, 75, 10, 211] ∧
    firstOccAt [10] [73, 67, 89, 32, 50, 48, 48, 32, 79, 75, 10, 211] 10 ∧
    ([73, 67, 89, 32, 50, 48, 48, 32, 79, 75, 10, 211] : List Nat).getD 11 0 = 0xD3 := by
  decide

/-- C4 (amended): the split point of `check_response_header` is the
position just after the first CRLFCRLF when one occurs; otherwise, with
`s` the position of the first CRLF (or, when no CRLF occurs, of the first
LF), the first occurrence of the sync byte `0xD3` at an index `≥ s + 2`;
otherwise the first control byte (value < 32 excluding tab/LF/CR) at an
index in `[s + 2, min (length) (s + 200))`; otherwise — also when no line
terminator occurs at all — the whole buffer is header and the leading
payload is empty. -/
theorem header_split_characterization (h : List Nat) :
    (∀ i, firstOccAt [13, 10, 13, 10] h i → header_end_pos h = i + 4) ∧
    (noOcc [13, 10, 13, 10] h → noOcc [13, 10] h → noOcc [10] h →
      header_end_pos h = h.length) ∧
    (∀ s, noOcc [13, 10, 13, 10] h →
      (firstOccAt [13, 10] h s ∨ (noOcc [13, 10] h ∧ firstOccAt [10] h s)) →
      ((∀ d, s + 2 ≤ d → d < h.length → h.getD d 0 = 0xD3 →
          (∀ j, s + 2 ≤ j → j < d → h.getD j 0 ≠ 0xD3) →
          header_end_pos h = d) ∧
       ((∀ j, s + 2 ≤ j → j < h.length → h.getD j 0 ≠ 0xD3) →
        ((∀ i, s + 2 ≤ i → i < min h.length (s + 200) → isCtrl (h.getD i 0) →
            (∀ j, s + 2 ≤ j → j < i → ¬ isCtrl (h.getD j 0)) →
            header_end_pos h = i) ∧
         ((∀ j, s + 2 ≤ j → j < min h.length (s + 200) → ¬ isCtrl (h.getD j 0)) →
          header_end_pos h = h.length))))) := by
  refine ⟨?part1, ?part2, ?part3⟩
  case part1 =>
    intro i hfo
    have hfs : findSub [13, 10, 13, 10] h = some i := (findSub_some_iff _ h i).mpr hfo
    simp [header_end_pos, hfs]
  case part2 =>
    intro h4 h2 h1
    have hfs4 : findSub [13, 10, 13, 10] h = none :=
      (findSub_none_iff _ h).mpr (noOcc_forall _ h (by simp) h4)
    have hfs2 : findSub [13, 10] h = none :=
      (findSub_none_iff _ h).mpr (noOcc_forall _ h (by simp) h2)
    have hfs1 : findSub [10] h = none :=
      (findSub_none_iff _ h).mpr (noOcc_forall _ h (by simp) h1)
    simp [header_end_pos, hfs4, hfs2, hfs1]
  case part3 =>
    intro s h4 hs
    have hfs4 : findSub [13, 10, 13, 10] h = none :=
      (findSub_none_iff _ h).mpr (noOcc_forall _ h (by simp) h4)
    have hse : (match findSub [13, 10] h with
        | some s' => some s'
        | none => findSub [10] h) = some s := by
      rcases hs with hcrlf | ⟨hno2, hlf⟩
      · rw [(findSub_some_iff _ h s).mpr hcrlf]
      · rw [(findSub_none_iff _ h).mpr (noOcc_forall _ h (by simp) hno2),
          (findSub_some_iff _ h s).mpr hlf]
    constructor
    · intro d hd1 hd2 hd3 hdmin
      have hbi : bindex 0xD3 (h.drop (s + 2)) = some (d - (s + 2)) := by
        apply bindex_some_of_getD
        · rw [List.length_drop]; omega
        · rw [getD_drop_add]
          have : s + 2 + (d - (s + 2)) = d := by omega
          rw [this, hd3]
        · intro j hj
          rw [getD_drop_add]
          exact hdmin (s + 2 + j) (by omega) (by omega)
      simp only [header_end_pos, hfs4, hse, hbi, Option.map_some']
      omega
    · intro hnosync
      have hbi : bindex 0xD3 (h.drop (s + 2)) = none := by
        apply bindex_none_of_getD
        intro j hj
        rw [List.length_drop] at hj
        rw [getD_drop_add]
        exact hnosync (s + 2 + j) (by omega) (by omega)
      constructor
      · intro i hi1 hi2 hi3 himin
        have hscan : ctrlScanN h (s + 2) (min h.length (s + 200) - (s + 2)) = some i := by
          apply ctrlScanN_some_of h _ _ i hi1 (by omega) hi3
          intro j hj1 hj2
          exact himin j hj1 hj2
        simp only [header_end_pos, hfs4, hse, hbi, Option.map_none', hscan]
      · intro hnoc
        have hscan : ctrlScanN h (s + 2) (min h.length (s + 200) - (s + 2)) = none := by
          apply ctrlScanN_none_of
          intro j hj1 hj2
          exact hnoc j hj1 (by omega)
        simp only [header_end_pos, hfs4, hse, hbi, Option.map_none', hscan]

theorem header_split_characterization_witness :
    header_end_pos [73, 67, 89, 32, 50, 48, 48, 32, 79, 75, 13, 10, 211, 1] = 12 := by
  have h := (header_split_characterization
    [73, 67, 89, 32, 50, 48, 48, 32, 79, 75, 13, 10, 211, 1]).2.2 10
    (by decide) (Or.inl (by decide))
  exact h.1 12 (by omega) (by decide) (by decide) (by intro j hj1 hj2; omega)

/-! ## Chunk independence of the frame decoder -/

theorem stream_nil (tail : List Nat) : stream [] tail = tail := by
  simp [stream]

theorem stream_cons (n f : List Nat) (segs : List (List Nat × List Nat)) (tail : List Nat) :
    stream ((n, f) :: segs) tail = n ++ (f ++ stream segs tail) := by
  simp [stream]

theorem stream_eq_nil (segs : List (List Nat × List Nat)) (tail : List Nat)
    (hw : ∀ p ∈ segs, wfFrame p.2) (hnil : stream segs tail = []) : segs = [] := by
  cases segs with
  | nil => rfl
  | cons p rest =>
    obtain ⟨n, f⟩ := p
    rw [stream_cons] at hnil
    have hf : f = [] := by
      rcases List.append_eq_nil.mp hnil with ⟨_, hrest⟩
      exact (List.append_eq_nil.mp hrest).1
    have hwf := hw (n, f) (by simp)
    rw [hf] at hwf
    obtain ⟨h0, _⟩ := hwf
    simp [List.getD_nil] at h0

theorem append_eq_append_of_le {α : Type} :
    ∀ (x a y b : List α), x ++ y = a ++ b → x.length ≤ a.length →
    ∃ t, a = x ++ t ∧ y = t ++ b := by
  intro x
  induction x with
  | nil =>
    intro a y b h _
    exact ⟨a, rfl, h⟩
  | cons c x' ih =>
    intro a y b h hl
    match a with
    | [] => simp at hl
    | c' :: a' =>
      simp only [List.cons_append, List.cons.injEq] at h
      obtain ⟨rfl, h2⟩ := h
      obtain ⟨t, ht1, ht2⟩ := ih a' y b h2 (by simp at hl; omega)
      exact ⟨t, by rw [List.cons_append, ht1], ht2⟩

theorem processBuffer_spec :
    ∀ (segs : List (List Nat × List Nat)) (tail x y : List Nat),
    (∀ p ∈ segs, noSync p.1) → (∀ p ∈ segs, wfFrame p.2) → noSync tail →
    x ++ y = stream segs tail →
    ∃ segs2 tail2,
      (∀ p ∈ segs2, noSync p.1) ∧ (∀ p ∈ segs2, wfFrame p.2) ∧ noSync tail2 ∧
      segs.map Prod.snd = (processBuffer x).1 ++ segs2.map Prod.snd ∧
      Aligned (processBuffer x).2 y segs2 tail2 := by
  intro segs
  induction segs with
  | nil =>
    intro tail x y _ _ htail heq
    rw [stream_nil] at heq
    have hx : noSync x := fun b hb => htail b (heq ▸ List.mem_append.mpr (Or.inl hb))
    have hy : noSync y := fun b hb => htail b (heq ▸ List.mem_append.mpr (Or.inr hb))
    have hbi : bindex 0xD3 x = none := by
      rw [bindex_none_iff]
      exact hx
    refine ⟨[], y, by simp, by simp, hy, ?_, ?_⟩
    · rw [pb_none x hbi]
      simp
    · rw [pb_none x hbi]
      exact Or.inl ⟨rfl, (stream_nil y).symm⟩
  | cons p segs' ih =>
    intro tail x y hn hw htail heq
    obtain ⟨n, f⟩ := p
    have hnoise : noSync n := hn (n, f) (by simp)
    have hwf : wfFrame f := hw (n, f) (by simp)
    have hn' : ∀ q ∈ segs', noSync q.1 := fun q hq => hn q (List.mem_cons_of_mem _ hq)
    have hw' : ∀ q ∈ segs', wfFrame q.2 := fun q hq => hw q (List.mem_cons_of_mem _ hq)
    obtain ⟨b1, b2, ft, rfl, hflen⟩ := wfFrame_shape f hwf
    rw [stream_cons] at heq
    by_cases hxn : x.length ≤ n.length
    · -- the buffer ends inside the noise before the frame
      obtain ⟨t, htn, hty⟩ := append_eq_append_of_le x n y (211 :: b1 :: b2 :: ft ++ stream segs' tail) heq hxn
      have hx : noSync x := fun b hb => hnoise b (htn ▸ List.mem_append.mpr (Or.inl hb))
      have ht : noSync t := fun b hb => hnoise b (htn ▸ List.mem_append.mpr (Or.inr hb))
      have hbi : bindex 0xD3 x = none := by
        rw [bindex_none_iff]
        exact hx
      refine ⟨(t, 211 :: b1 :: b2 :: ft) :: segs', tail, ?_, ?_, htail, ?_, ?_⟩
      · intro q hq
        rcases List.mem_cons.mp hq with hq | hq
        · rw [hq]; exact ht
        · exact hn' q hq
      · intro q hq
        rcases List.mem_cons.mp hq with hq | hq
        · rw [hq]; exact hwf
        · exact hw' q hq
      · rw [pb_none x hbi]
        simp
      · rw [pb_none x hbi]
        refine Or.inl ⟨rfl, ?_⟩
        rw [hty, stream_cons]
    · -- the buffer reaches into the frame
      push_neg at hxn
      obtain ⟨g, hxg, hgy⟩ := append_eq_append_of_le n x (211 :: b1 :: b2 :: ft ++ stream segs' tail) y heq.symm (by omega)
      have hglen : 0 < g.length := by
        have hcl := congrArg List.length hxg
        rw [List.length_append] at hcl
        omega
      have hxdrop : x.drop n.length = g := by
        rw [hxg]
        exact List.drop_left n g
      have hxlen : x.length = n.length + g.length := by
        rw [hxg, List.length_append]
      by_cases hgf : g.length < (211 :: b1 :: b2 :: ft).length
      · -- only part of the frame has arrived
        have hgtake : g = (211 :: b1 :: b2 :: ft).take g.length := by
          have h1 := congrArg (List.take g.length) hgy
          rw [List.take_append_of_le_length (by omega), List.take_left] at h1
          exact h1.symm
        have hy2 : y = (211 :: b1 :: b2 :: ft).drop g.length ++ stream segs' tail := by
          have h2 : (211 :: b1 :: b2 :: ft).take g.length ++
              ((211 :: b1 :: b2 :: ft).drop g.length ++ stream segs' tail) =
              (211 :: b1 :: b2 :: ft).take g.length ++ y := by
            rw [← List.append_assoc, List.take_append_drop, hgy, ← hgtake]
          exact (List.append_cancel_left h2).symm
        obtain ⟨gh, gt, rfl⟩ : ∃ gh gt, g = gh :: gt := by
          cases g with
          | nil => simp at hglen
          | cons gh gt => exact ⟨gh, gt, rfl⟩
        have hgh : gh = 211 := by
          have hgt := hgtake
          simp only [List.length_cons, List.take_succ_cons, List.cons.injEq] at hgt
          exact hgt.1
        subst hgh
        have hbi : bindex 0xD3 x = some n.length := by
          rw [hxg]
          exact bindex_append_cons 0xD3 n gt hnoise
        have hpb : processBuffer x = ([], 211 :: gt) := by
          by_cases h3 : (211 :: gt).length < 3
          · refine (pb_short x n.length hbi ?_).trans (by rw [hxdrop])
            simp only [List.length_cons] at h3 hxlen ⊢
            omega
          · have hgstruct : (211 :: gt) = 211 :: b1 :: b2 :: ft.take ((211 :: gt).length - 3) := by
              obtain ⟨m, hm⟩ : ∃ m, (211 :: gt).length = m + 3 :=
                ⟨(211 :: gt).length - 3, by simp only [List.length_cons] at h3 ⊢; omega⟩
              rw [hgtake, hm]
              simp [List.take_succ_cons]
            have hg1 : (x.drop n.length).getD 1 0 = b1 := by
              rw [hxdrop, hgstruct]; rfl
            have hg2 : (x.drop n.length).getD 2 0 = b2 := by
              rw [hxdrop, hgstruct]; rfl
            refine (pb_wait x n.length hbi ?_ ?_).trans (by rw [hxdrop])
            · simp only [List.length_cons] at h3 hxlen ⊢
              omega
            · rw [hg1, hg2]
              simp only [List.length_cons] at hgf hflen hxlen ⊢
              omega
        refine ⟨([], 211 :: b1 :: b2 :: ft) :: segs', tail, ?_, ?_, htail, ?_, ?_⟩
        · intro q hq
          rcases List.mem_cons.mp hq with hq | hq
          · rw [hq]; intro b hb; simp at hb
          · exact hn' q hq
        · intro q hq
          rcases List.mem_cons.mp hq with hq | hq
          · rw [hq]; exact hwf
          · exact hw' q hq
        · rw [hpb]
          simp
        · rw [hpb]
          exact Or.inr ⟨211 :: b1 :: b2 :: ft, (211 :: gt).length, segs', rfl, by simp, hgf,
            hgtake, hy2⟩
      · -- the whole frame (and possibly more) has arrived
        push_neg at hgf
        obtain ⟨x', hgx', hSx'⟩ := append_eq_append_of_le (211 :: b1 :: b2 :: ft) g
          (stream segs' tail) y hgy hgf
        have hxfull : x = n ++ ((211 :: b1 :: b2 :: ft) ++ x') := by
          rw [hxg, hgx']
        have hbi : bindex 0xD3 x = some n.length := by
          rw [hxfull]
          simp only [List.cons_append]
          exact bindex_append_cons 0xD3 n (b1 :: b2 :: (ft ++ x')) hnoise
        have hdrop2 : x.drop n.length = (211 :: b1 :: b2 :: ft) ++ x' := by
          rw [hxfull]
          exact List.drop_left n _
        have hg1 : (x.drop n.length).getD 1 0 = b1 := by rw [hdrop2]; rfl
        have hg2 : (x.drop n.length).getD 2 0 = b2 := by rw [hdrop2]; rfl
        have hxlen2 : x.length = n.length + ((211 :: b1 :: b2 :: ft).length + x'.length) := by
          rw [hxfull, List.length_append, List.length_append]
        have h3 : ¬ x.length - n.length < 3 := by
          simp only [List.length_cons] at hxlen2 ⊢
          omega
        have hfL : ¬ x.length - n.length <
            3 + declLen ((x.drop n.length).getD 1 0) ((x.drop n.length).getD 2 0) + 3 := by
          rw [hg1, hg2]
          simp only [List.length_cons] at hxlen2 hflen ⊢
          omega
        have hrest : x.drop (n.length +
            (3 + declLen ((x.drop n.length).getD 1 0) ((x.drop n.length).getD 2 0) + 3)) = x' := by
          rw [hg1, hg2, ← hflen, hxfull, ← List.append_assoc, ← List.length_append,
            List.length_append]
          have := List.drop_left (n ++ (211 :: b1 :: b2 :: ft)) x'
          rw [List.length_append] at this
          exact this
        have htake : (x.drop n.length).take
            (3 + declLen ((x.drop n.length).getD 1 0) ((x.drop n.length).getD 2 0) + 3) =
            211 :: b1 :: b2 :: ft := by
          rw [hg1, hg2, ← hflen, hdrop2]
          exact List.take_left _ x'
        have hpb := pb_step x n.length hbi h3 hfL
        rw [hrest, htake] at hpb
        obtain ⟨segs2, tail2, hn2, hw2, ht2, hmap2, hal2⟩ :=
          ih tail x' y hn' hw' htail hSx'.symm
        refine ⟨segs2, tail2, hn2, hw2, ht2, ?_, ?_⟩
        · rw [hpb]
          simp only [List.map_cons, List.cons_append]
          rw [hmap2]
        · rw [hpb]
          exact hal2

theorem feedFrom_spec :
    ∀ (chunks : List (List Nat)) (buf : List Nat)
      (segs : List (List Nat × List Nat)) (tail : List Nat),
    (∀ p ∈ segs, noSync p.1) → (∀ p ∈ segs, wfFrame p.2) → noSync tail →
    Aligned buf chunks.flatten segs tail →
    (feedFrom buf chunks).1 = segs.map Prod.snd := by
  intro chunks
  induction chunks with
  | nil =>
    intro buf segs tail hn hw ht hal
    rcases hal with ⟨hb, hy⟩ | ⟨f, k, segs', hseq, hk0, hkf, hbuf, hy⟩
    · rw [List.flatten_nil] at hy
      rw [stream_eq_nil segs tail hw hy.symm]
      rfl
    · rw [List.flatten_nil] at hy
      have hdnil := (List.append_eq_nil.mp hy.symm).1
      rw [List.drop_eq_nil_iff] at hdnil
      omega
  | cons c rest ih =>
    intro buf segs tail hn hw ht hal
    have hx : (buf ++ c) ++ rest.flatten = stream segs tail := by
      rcases hal with ⟨hb, hy⟩ | ⟨f, k, segs', hseq, hk0, hkf, hbuf, hy⟩
      · subst hb
        rw [List.flatten_cons] at hy
        rw [List.nil_append]
        exact hy
      · subst hseq
        subst hbuf
        rw [List.flatten_cons] at hy
        rw [stream_cons, List.nil_append, List.append_assoc, hy,
          ← List.append_assoc, List.take_append_drop]
    obtain ⟨segs2, tail2, hn2, hw2, ht2, hmap, hal2⟩ :=
      processBuffer_spec segs tail (buf ++ c) rest.flatten hn hw ht hx
    simp only [feedFrom]
    rw [ih (processBuffer (buf ++ c)).2 segs2 tail2 hn2 hw2 ht2 hal2]
    exact hmap.symm

/-- C1: for every byte sequence consisting of well-formed frames
interleaved with arbitrary noise free of the sync byte `0xD3`, feeding the
sequence to the decoder in any partition into successive chunks yields
exactly the frames of the sequence — the same number of frames, the same
frames, and the same message types, in the same order, independent of the
chunking. -/
theorem rtcm_chunk_independence
    (segs : List (List Nat × List Nat)) (tail : List Nat) (chunks : List (List Nat))
    (hn : ∀ p ∈ segs, noSync p.1) (hw : ∀ p ∈ segs, wfFrame p.2) (ht : noSync tail)
    (hc : chunks.flatten = stream segs tail) :
    (feedAll chunks).1 = segs.map Prod.snd ∧
    (feedAll chunks).1.length = segs.length ∧
    (feedAll chunks).1.map (fun fr => parse_rtcm3_message_type (framePayload fr)) =
      segs.map (fun p => parse_rtcm3_message_type (framePayload p.2)) := by
  have h1 : (feedAll chunks).1 = segs.map Prod.snd :=
    feedFrom_spec chunks [] segs tail hn hw ht (Or.inl ⟨rfl, hc⟩)
  refine ⟨h1, ?_, ?_⟩
  · rw [h1, List.length_map]
  · rw [h1, List.map_map]
    rfl

theorem rtcm_chunk_independence_witness :
    (feedAll [[1], [2, 211, 0], [2, 62, 128, 9], [9, 9, 7]]).1 =
      [[211, 0, 2, 62, 128, 9, 9, 9]] ∧
    (feedAll [[1, 2, 211, 0, 2, 62, 128, 9, 9, 9, 7]]).1 =
      [[211, 0, 2, 62, 128, 9, 9, 9]] := by
  have ha := rtcm_chunk_independence [([1, 2], [211, 0, 2, 62, 128, 9, 9, 9])] [7]
    [[1], [2, 211, 0], [2, 62, 128, 9], [9, 9, 7]]
    (by decide) (by decide) (by decide) (by decide)
  have hb := rtcm_chunk_independence [([1, 2], [211, 0, 2, 62, 128, 9, 9, 9])] [7]
    [[1, 2, 211, 0, 2, 62, 128, 9, 9, 9, 7]]
    (by decide) (by decide) (by decide) (by decide)
  exact ⟨ha.1, hb.1⟩
